import Mathlib

/-!
Verification of the symbol-search query compiler of this repository
(package `symbolsearch`).

The development has three layers:

1. A character-exact embedding of the Go string-building functions that
   assemble the three SQL query templates (`processArg`, `toTSQuery`,
   `constructQuery`, the `filter*` and score snippets, and the base query).

2. A semantic model of the generated SQL, evaluated over corpus rows:
   `split_part($1, '.', 1)` becomes `headBeforeDot`,
   `substring(.. from E'[^.]*\.(.+)$')` becomes `restAfterDot`,
   `replace(.., '_', '-')` becomes `normalizeSem`,
   `replace($1, ' ', ' | ')` followed by `to_tsquery` becomes `splitSp`,
   `tsv @@ to_tsquery(..)` becomes token-set intersection (`tsvMatch`),
   the score expressions become real-valued functions (`ts_rank` is a
   text-search-engine primitive, so the lexical rank is a parameter),
   and the outer `WHERE r.score > 0.1 .. ORDER BY .. LIMIT` becomes
   `assemble`.  Query strings are modelled as `List Char`.

3. Definitions that follow the specification's own words (named `spec...`
   or marked `Modelled from the spec:`), compared with the model of the
   source in the claim theorems.
-/

/-! ## Layer 1: the Go string builders, embedded character-exactly -/

def SymbolTextSearchConfiguration : String := "symbols"

/-- `fmt.Sprintf` with a single `%s` verb. -/
def sprintf1 (f arg : String) : String :=
  match f.splitOn ("%s") with
  | [x, y] => x ++ arg ++ y
  | _ => f

/-- `fmt.Sprintf` with two `%s` verbs. -/
def sprintf2 (f a b : String) : String :=
  match f.splitOn ("%s") with
  | [x, y, z] => x ++ a ++ y ++ b ++ z
  | _ => f

/-- Go `indent(s, n)`: prepends `n+1` tabs and a leading newline. -/
def indent (s : String) (n : Nat) : String :=
  "\n" ++ String.join (List.replicate (n + 1) ("\t")) ++ s

def formatScore (s : String) : String := "(\n\t\t\t\t" ++ s ++ "\n\t\t\t)"

def formatFilter (s : String) : String := "(\n\t\t\t" ++ s ++ "\n\t\t)"

def formatMultiplier (s : String) : String := indent ("* " ++ s) 3

def splitOR : String := "replace($1, ' ', ' | ')"

def splitFirstDot : String := "split_part($1, '.', 1)"

/-- Left-to-right non-overlapping pattern test used by `listReplaceAll`. -/
def isPrefixList : List Char → List Char → Bool
  | [], _ => true
  | _ :: _, [] => false
  | p :: ps, c :: cs => p = c && isPrefixList ps cs

/-- Fuel-indexed worker for `listReplaceAll`; the fuel starts at the length
of the subject, which one character (or one whole match) per step cannot
exhaust early. -/
def replaceAllFuel (pat rep : List Char) : Nat → List Char → List Char
  | _, [] => []
  | 0, s => s
  | Nat.succ fuel, c :: cs =>
    if isPrefixList pat (c :: cs) then
      rep ++ replaceAllFuel pat rep fuel ((c :: cs).drop pat.length)
    else c :: replaceAllFuel pat rep fuel cs

/-- Go `strings.ReplaceAll` on character lists (leftmost, non-overlapping). -/
def listReplaceAll (s pat rep : List Char) : List Char :=
  replaceAllFuel pat rep s.length s

/-- Go `strings.ReplaceAll` on strings. -/
def goReplaceAll (s pat rep : String) : String :=
  String.mk (listReplaceAll s.data pat.data rep.data)

/-- Go `strings.HasPrefix(arg, "$")`. -/
def goStartsWithDollar (arg : String) : Bool :=
  match arg.data with
  | c :: _ => c = '$'
  | [] => false

/-- Go `processArg`: wraps the `$N` placeholder inside `arg` in an
underscore-to-hyphen `replace` call. -/
def processArg (arg : String) : String :=
  let s := if arg.length = 2 && goStartsWithDollar arg then arg else "$1"
  goReplaceAll arg s ("replace(" ++ s ++ ", '_', '-')")

def toTSQuery (arg : String) : String :=
  "to_tsquery('" ++ SymbolTextSearchConfiguration ++ "', " ++ processArg arg ++ ")"

def filterSymbol : String := "s.tsv_name_tokens @@ " ++ toTSQuery ("$1")

def filterSymbolOR : String := "s.tsv_name_tokens @@ " ++ toTSQuery splitOR

def filterPackageNameOrPath : String :=
  "(sd.name=" ++ splitFirstDot ++ " OR sd.package_path=" ++ splitFirstDot ++ ")"

def filterPackageDotSymbol : String :=
  filterPackageNameOrPath ++ " AND " ++
    sprintf1 (formatFilter ("s.tsv_name_tokens @@ %s"))
      (toTSQuery ("substring($1 from E'[^.]*\\.(.+)$')"))

def filterPackage : String := "sd.tsv_path_tokens @@ " ++ toTSQuery splitOR

def filterMultiWord : String :=
  formatFilter filterSymbolOR ++ " AND " ++ formatFilter filterPackage

def popularityMultiplier : String := "ln(exp(1)+sd.imported_by_count)"

def rankPathTokens : String :=
  "ts_rank(" ++ indent ("'\x7b0.1, 0.2, 1.0, 1.0\x7d'") 4 ++ "," ++
    indent ("sd.tsv_path_tokens") 4 ++ "," ++
    indent (toTSQuery splitOR) 4 ++ indent (")") 3

def scoreMultiWord : String := rankPathTokens ++ formatMultiplier popularityMultiplier

def symbolSearchBaseQuery : String :=
  "\nWITH results AS (\n\tSELECT\n\t\t\ts.name AS symbol_name,\n\t\t\tsd.package_path,\n\t\t\tsd.module_path,\n\t\t\tsd.version,\n\t\t\tsd.name AS package_name,\n\t\t\tsd.synopsis,\n\t\t\tsd.license_types,\n\t\t\tsd.commit_time,\n\t\t\tsd.imported_by_count,\n\t\t\tssd.package_symbol_id,\n\t\t\tssd.goos,\n\t\t\tssd.goarch,\n\t\t\t%s AS score\n\tFROM symbol_search_documents ssd\n\tINNER JOIN search_documents sd ON sd.unit_id = ssd.unit_id\n\tINNER JOIN symbol_names s ON s.id = ssd.symbol_name_id\n\tWHERE %s\n)\nSELECT\n\tr.symbol_name,\n\tr.package_path,\n\tr.module_path,\n\tr.version,\n\tr.package_name,\n\tr.synopsis,\n\tr.license_types,\n\tr.commit_time,\n\tr.imported_by_count,\n\tr.goos,\n\tr.goarch,\n\tps.type AS symbol_type,\n\tps.synopsis AS symbol_synopsis\nFROM results r\nINNER JOIN package_symbols ps ON r.package_symbol_id = ps.id\nWHERE r.score > 0.1\nORDER BY\n\tscore DESC,\n\tcommit_time DESC,\n\tsymbol_name,\n\tpackage_path\nLIMIT $2;"

/-- Go `constructQuery`: picks the popularity-only score unless the filter is
the multi-word one, then substitutes score and filter into the base query. -/
def constructQuery (wh : String) : String :=
  let score := if wh == filterMultiWord then formatScore scoreMultiWord else popularityMultiplier
  sprintf2 symbolSearchBaseQuery score wh

def rawLegacyQuerySymbol : String := constructQuery filterSymbol

def rawLegacyQueryPackageDotSymbol : String := constructQuery filterPackageDotSymbol

def rawLegacyQueryMultiWord : String := constructQuery filterMultiWord

/-! ## Layer 2: semantic model of the generated SQL over corpus rows -/

/-- Query strings and tokens are modelled as character lists. -/
abbrev Str := List Char

/-- Character list of a string literal (used for concrete instances). -/
def chars (s : String) : Str := s.data

/-- One character of `replace(.., '_', '-')`. -/
def normChar (c : Char) : Char := if c = '_' then '-' else c

/-- Semantics of the SQL `replace(s, '_', '-')` produced by `processArg`:
the spec's `normalize`. -/
def normalizeSem (s : Str) : Str := s.map normChar

/-- Semantics of `split_part($1, '.', 1)` (the `splitFirstDot` snippet):
everything before the first dot, or the whole string when it has no dot. -/
def headBeforeDot (s : Str) : Str := s.takeWhile (fun c => c != '.')

/-- Semantics of `substring(s from E'[^.]*\.(.+)$')` in `filterPackageDotSymbol`:
everything after the first dot, or SQL NULL (`none`) when the string has no
dot or nothing follows the first dot. -/
def restAfterDot (s : Str) : Option Str :=
  match s.dropWhile (fun c => c != '.') with
  | [] => none
  | [_] => none
  | _ :: t => some t

/-- Splitting at every single space character: the lexemes of the `tsquery`
obtained from `replace(s, ' ', ' | ')` (the `splitOR` snippet). -/
def splitSp : Str → List Str
  | [] => [[]]
  | c :: t =>
    if c = ' ' then [] :: splitSp t
    else
      match splitSp t with
      | [] => [[c]]
      | w :: ws => (c :: w) :: ws

def joinSpAux : List Str → Str
  | [] => []
  | w :: ws => ' ' :: (w ++ joinSpAux ws)

/-- Joins words with single spaces: the canonical form of a multi-word query. -/
def joinSp : List Str → Str
  | [] => []
  | w :: ws => w ++ joinSpAux ws

/-- Semantics of `tsv @@ to_tsquery(..)` for an OR-combination of lexemes:
the row's precomputed token set intersects the query's token list. -/
def tsvMatch (rowToks : List Str) (queryToks : List Str) : Bool :=
  queryToks.any (fun t => rowToks.contains t)

/-- One row of the joined corpus
(`symbol_search_documents` x `search_documents` x `symbol_names`):
the columns read by the generated query, with the two precomputed
token-index columns. -/
structure Row where
  symbolName : Str
  tsvNameTokens : List Str
  packageName : Str
  packagePath : Str
  tsvPathTokens : List Str
  importedByCount : Nat
  commitTime : Int
  goos : Str
  goarch : Str
deriving DecidableEq

/-- Semantics of the `filterSymbol` SQL
(`s.tsv_name_tokens @@ to_tsquery('symbols', replace($1, '_', '-'))`). -/
def filterSymbolSem (r : Row) (q : Str) : Bool :=
  tsvMatch r.tsvNameTokens [normalizeSem q]

/-- Semantics of the `filterSymbolOR` SQL: the query is normalized and then
OR-split on spaces. -/
def filterSymbolORSem (r : Row) (q : Str) : Bool :=
  tsvMatch r.tsvNameTokens (splitSp (normalizeSem q))

/-- Semantics of the `filterPackage` SQL, over the path-token index. -/
def filterPackageSem (r : Row) (q : Str) : Bool :=
  tsvMatch r.tsvPathTokens (splitSp (normalizeSem q))

/-- Semantics of the `filterPackageNameOrPath` SQL: exact equality of the
package display name or import path with the raw (unnormalized) text before
the first dot. -/
def filterPackageNameOrPathSem (r : Row) (q : Str) : Bool :=
  (r.packageName == headBeforeDot q) || (r.packagePath == headBeforeDot q)

/-- Semantics of the `filterPackageDotSymbol` SQL.  The regexp `substring` is
applied to the already-normalized `$1`; a NULL substring makes the `WHERE`
condition non-true, so no row matches. -/
def filterPackageDotSymbolSem (r : Row) (q : Str) : Bool :=
  filterPackageNameOrPathSem r q &&
    (match restAfterDot (normalizeSem q) with
     | none => false
     | some rest => tsvMatch r.tsvNameTokens [rest])

/-- Semantics of the `filterMultiWord` SQL: both token-intersection
conjuncts over the same OR-token list. -/
def filterMultiWordSem (r : Row) (q : Str) : Bool :=
  filterSymbolORSem r q && filterPackageSem r q

/-- Semantics of the `popularityMultiplier` SQL snippet
`ln(exp(1)+sd.imported_by_count)`. -/
noncomputable def popularityMultiplierSem (n : Nat) : ℝ :=
  Real.log (Real.exp 1 + n)

/-- Semantics of the score column chosen by `constructQuery`: the branch is
on the very filter string the Go code compares against.  `ts_rank` is a
primitive of the external text-search engine, so the lexical rank enters as
a parameter `lexRank`; for the two single-word strategies the generated SQL
contains no `ts_rank` factor at all. -/
noncomputable def scoreSem (wh : String) (lexRank : ℝ) (n : Nat) : ℝ :=
  if wh == filterMultiWord then lexRank * popularityMultiplierSem n
  else popularityMultiplierSem n

/-! ### The result assembler (outer part of `symbolSearchBaseQuery`) -/

/-- A corpus row annotated with its computed score, as handed to the filter,
sort and truncate stage.  The score is kept as a rational so that the
comparator is decidable; the scoring formulas themselves are treated on the
real numbers above. -/
structure ScoredRow where
  row : Row
  score : ℚ
deriving DecidableEq

/-- The four `ORDER BY` keys of the generated query, in order:
`score DESC, commit_time DESC, symbol_name, package_path`. -/
def sortKey (sr : ScoredRow) : ℚ × Int × Str × Str :=
  (sr.score, sr.row.commitTime, sr.row.symbolName, sr.row.packagePath)

/-- Three-way comparison on a linear order. -/
def cmpLin {α : Type} [LinearOrder α] (a b : α) : Ordering :=
  if a < b then Ordering.lt else if b < a then Ordering.gt else Ordering.eq

/-- Lexicographic three-way comparison of character lists
(SQL ascending text collation, modelled on code points). -/
def cmpStr : Str → Str → Ordering
  | [], [] => Ordering.eq
  | [], _ :: _ => Ordering.lt
  | _ :: _, [] => Ordering.gt
  | x :: xs, y :: ys => (cmpLin x y).then (cmpStr xs ys)

/-- Lexicographic combination of two three-way comparators. -/
def cmpPair {α β : Type} (cA : α → α → Ordering) (cB : β → β → Ordering)
    (x y : α × β) : Ordering :=
  (cA x.1 y.1).then (cB x.2 y.2)

/-- Descending comparison (for `score DESC` and `commit_time DESC`). -/
def cmpDesc {α : Type} [LinearOrder α] (a b : α) : Ordering := cmpLin b a

/-- The four-key comparator of the `ORDER BY` clause. -/
def cmpKey : ℚ × Int × Str × Str → ℚ × Int × Str × Str → Ordering :=
  cmpPair cmpDesc (cmpPair cmpDesc (cmpPair cmpStr cmpStr))

def cmpRows (a b : ScoredRow) : Ordering := cmpKey (sortKey a) (sortKey b)

/-- `a` may come before `b` in the output order. -/
def rle (a b : ScoredRow) : Prop := cmpRows a b ≠ Ordering.gt

instance (a b : ScoredRow) : Decidable (rle a b) := by
  unfold rle; infer_instance

/-- The relevance floor `WHERE r.score > 0.1`. -/
def keepRow (sr : ScoredRow) : Bool := decide ((1 : ℚ)/10 < sr.score)

def insertRow (x : ScoredRow) : List ScoredRow → List ScoredRow
  | [] => [x]
  | y :: ys =>
    if cmpRows x y = Ordering.gt then y :: insertRow x ys else x :: y :: ys

/-- Sorting by the four-key comparator (`ORDER BY`). -/
def sortRows : List ScoredRow → List ScoredRow
  | [] => []
  | x :: xs => insertRow x (sortRows xs)

/-- Semantics of the outer part of `symbolSearchBaseQuery`:
`WHERE r.score > 0.1`, then
`ORDER BY score DESC, commit_time DESC, symbol_name, package_path`,
then `LIMIT $2`. -/
def assemble (rows : List ScoredRow) (limit : Nat) : List ScoredRow :=
  (sortRows (rows.filter keepRow)).take limit

/-! ## Layer 3: definitions following the specification's words -/

/-- Follows the spec's words (§4.2, strategy 2): a row matches a qualified
reference `<head>.<rest>` when the package display name or import path
equals `<head>` exactly and the symbol's name-token set intersects the
normalized tokens of `<rest>`. -/
def specQualifiedMatch (r : Row) (head rest : Str) : Bool :=
  ((r.packageName == head) || (r.packagePath == head)) &&
    tsvMatch r.tsvNameTokens [normalizeSem rest]

/-- Follows the spec's words (§4.2, strategy 3): a row matches a multi-word
query when the symbol's name-token set intersects the OR-combined normalized
query tokens and the package's path-token set intersects the same set. -/
def specMultiWordMatch (r : Row) (ws : List Str) : Bool :=
  tsvMatch r.tsvNameTokens (ws.map normalizeSem) &&
    tsvMatch r.tsvPathTokens (ws.map normalizeSem)

inductive Strategy
  | bareSymbol
  | qualifiedReference
  | multiWord
deriving DecidableEq

inductive QueryError
  | invalidQuery
  | invalidLimit
deriving DecidableEq

/-- Modelled from the spec: the caller-side strategy selection and input
validation of `compile(rawQuery, limit)` (§4.2, §6, §7) are not in the
sources under `src/` — the Go file only defines the three precompiled query
bodies.  Following the spec's words: whitespace-containing input is
multi-word; whitespace-free input containing a dot is a qualified reference
whose head (before the first dot) and rest (after the first dot) must be
non-empty, else `InvalidQuery` with no fallback to another strategy;
`limit <= 0` is `InvalidLimit`. -/
def compile (raw : Str) (limit : Int) : Except QueryError (Strategy × Int) :=
  if limit ≤ 0 then Except.error QueryError.invalidLimit
  else if raw.contains (' ') then Except.ok (Strategy.multiWord, limit)
  else if raw.contains ('.') then
    match headBeforeDot raw, restAfterDot raw with
    | [], _ => Except.error QueryError.invalidQuery
    | _, none => Except.error QueryError.invalidQuery
    | _ :: _, some _ => Except.ok (Strategy.qualifiedReference, limit)
  else Except.ok (Strategy.bareSymbol, limit)

/-! ### Concrete corpus rows used for instantiating the theorems -/

def exRow : Row where
  symbolName := chars ("Marshal")
  tsvNameTokens := [chars ("marshal"), chars ("server"), chars ("Type.Method")]
  packageName := chars ("pkg")
  packagePath := chars ("example.com/pkg")
  tsvPathTokens := [chars ("example.com"), chars ("pkg"), chars ("http")]
  importedByCount := 5
  commitTime := 100
  goos := chars ("linux")
  goarch := chars ("amd64")

def exRow2 : Row where
  symbolName := chars ("Server")
  tsvNameTokens := [chars ("server")]
  packageName := chars ("a_b")
  packagePath := chars ("example.com/a_b")
  tsvPathTokens := [chars ("example.com"), chars ("a-b")]
  importedByCount := 0
  commitTime := 50
  goos := chars ("linux")
  goarch := chars ("arm64")

def exScored1 : ScoredRow where
  row := exRow
  score := 2

def exScored2 : ScoredRow where
  row := exRow2
  score := 1

/-! ## Lemmas about the query-string semantics -/

theorem headBeforeDot_concat (h t : Str) (hh : ∀ c ∈ h, c ≠ '.') :
    headBeforeDot (h ++ '.' :: t) = h := by
  induction h with
  | nil => simp [headBeforeDot]
  | cons a hs ih =>
    have ha : (a != '.') = true := by
      simpa using hh a (List.mem_cons_self a hs)
    have ih2 := ih (fun c hc => hh c (List.mem_cons_of_mem a hc))
    simp only [List.cons_append, headBeforeDot, List.takeWhile_cons, ha] at ih2 ⊢
    simpa using ih2

theorem dropWhileDot_concat (h t : Str) (hh : ∀ c ∈ h, c ≠ '.') :
    (h ++ '.' :: t).dropWhile (fun c => c != '.') = '.' :: t := by
  induction h with
  | nil => simp
  | cons a hs ih =>
    have ha : (a != '.') = true := by
      simpa using hh a (List.mem_cons_self a hs)
    have ih2 := ih (fun c hc => hh c (List.mem_cons_of_mem a hc))
    simp only [List.cons_append, List.dropWhile_cons, ha] at ih2 ⊢
    simpa using ih2

theorem normChar_dot : normChar '.' = '.' := by decide

theorem normalizeSem_append (a b : Str) :
    normalizeSem (a ++ b) = normalizeSem a ++ normalizeSem b :=
  List.map_append normChar a b

theorem normalizeSem_ne_dot (h : Str) (hh : ∀ c ∈ h, c ≠ '.') :
    ∀ c ∈ normalizeSem h, c ≠ '.' := by
  intro c hc
  obtain ⟨x, hx, rfl⟩ := List.mem_map.mp hc
  have hx' := hh x hx
  unfold normChar
  split
  · decide
  · exact hx'

theorem normalizeSem_ne_nil (s : Str) (hs : s ≠ []) : normalizeSem s ≠ [] := by
  simpa [normalizeSem] using hs

theorem restAfterDot_concat (h t : Str) (hh : ∀ c ∈ h, c ≠ '.') (ht : t ≠ []) :
    restAfterDot (h ++ '.' :: t) = some t := by
  unfold restAfterDot
  rw [dropWhileDot_concat h t hh]
  cases t with
  | nil => exact absurd rfl ht
  | cons a t => rfl

theorem splitSp_word_append (w t u : Str) (us : List Str)
    (hw : ∀ c ∈ w, c ≠ ' ') (ht : splitSp t = u :: us) :
    splitSp (w ++ t) = (w ++ u) :: us := by
  induction w with
  | nil => simpa using ht
  | cons a ws ih =>
    have ha : ¬ (a = ' ') := hw a (List.mem_cons_self a ws)
    have ih2 := ih (fun c hc => hw c (List.mem_cons_of_mem a hc))
    simp only [List.cons_append, splitSp, ha, if_false]
    rw [List.append_eq, ih2]

theorem splitSp_join (ws : List Str) (hne : ws ≠ [])
    (hsp : ∀ w ∈ ws, ∀ c ∈ w, c ≠ ' ') :
    splitSp (joinSp ws) = ws := by
  induction ws with
  | nil => exact absurd rfl hne
  | cons w rest ih =>
    cases rest with
    | nil =>
      have h0 : splitSp ([] : Str) = [] :: [] := rfl
      have h1 := splitSp_word_append w [] [] []
        (hsp w (List.mem_cons_self w [])) h0
      simpa [joinSp, joinSpAux] using h1
    | cons w2 rest2 =>
      have ih2 := ih (by simp) (fun x hx => hsp x (List.mem_cons_of_mem w hx))
      have e : joinSp (w :: w2 :: rest2) = w ++ ' ' :: joinSp (w2 :: rest2) := by
        simp [joinSp, joinSpAux]
      have h2 : splitSp (' ' :: joinSp (w2 :: rest2)) = [] :: (w2 :: rest2) := by
        rw [show splitSp (' ' :: joinSp (w2 :: rest2))
              = [] :: splitSp (joinSp (w2 :: rest2)) from by simp [splitSp], ih2]
      have h3 := splitSp_word_append w (' ' :: joinSp (w2 :: rest2)) [] (w2 :: rest2)
        (hsp w (List.mem_cons_self w _)) h2
      rw [e, h3]
      simp

theorem normChar_space : normChar ' ' = ' ' := by decide

theorem normalizeSem_joinSpAux (ws : List Str) :
    normalizeSem (joinSpAux ws) = joinSpAux (ws.map normalizeSem) := by
  induction ws with
  | nil => rfl
  | cons w rest ih =>
    simp only [joinSpAux, List.map_cons, normalizeSem, List.map_cons, List.map_append] at ih ⊢
    rw [show normChar ' ' = ' ' from by decide]
    rw [ih]

theorem normalizeSem_joinSp (ws : List Str) :
    normalizeSem (joinSp ws) = joinSp (ws.map normalizeSem) := by
  cases ws with
  | nil => rfl
  | cons w rest =>
    simp only [joinSp, List.map_cons, normalizeSem_append]
    rw [show normalizeSem (joinSpAux rest) = joinSpAux (rest.map normalizeSem) from
      normalizeSem_joinSpAux rest]

theorem normalizeSem_ne_space (w : Str) (hw : ∀ c ∈ w, c ≠ ' ') :
    ∀ c ∈ normalizeSem w, c ≠ ' ' := by
  intro c hc
  obtain ⟨x, hx, rfl⟩ := List.mem_map.mp hc
  have hx' := hw x hx
  unfold normChar
  split
  · decide
  · exact hx'

/-- Claim C1: a qualified-reference query is split at the first dot only, and
the generated filter matches a corpus row exactly when the package's display
name or import path equals the head (case-sensitively) and the symbol's
name-token set intersects the normalized tokens of the rest. -/
theorem claimC1_qualified_reference_match (r : Row) (head rest : Str)
    (hh : ∀ c ∈ head, c ≠ '.') (hr : rest ≠ []) :
    filterPackageDotSymbolSem r (head ++ '.' :: rest)
      = specQualifiedMatch r head rest := by
  unfold filterPackageDotSymbolSem filterPackageNameOrPathSem specQualifiedMatch
  rw [headBeforeDot_concat head rest hh]
  have e1 : normalizeSem (head ++ '.' :: rest)
      = normalizeSem head ++ '.' :: normalizeSem rest := by
    simp [normalizeSem_append, normalizeSem, normChar_dot]
  rw [e1, restAfterDot_concat (normalizeSem head) (normalizeSem rest)
      (normalizeSem_ne_dot head hh) (normalizeSem_ne_nil rest hr)]

/-- Witness for C1 at the query `pkg.Type.Method` and a concrete row. -/
theorem claimC1_witness :
    filterPackageDotSymbolSem exRow (chars ("pkg") ++ '.' :: chars ("Type.Method"))
      = specQualifiedMatch exRow (chars ("pkg")) (chars ("Type.Method")) :=
  claimC1_qualified_reference_match exRow (chars ("pkg")) (chars ("Type.Method"))
    (by decide) (by decide)

/-- Claim C2: a multi-word query is the space-joined word list; the generated
filter matches a corpus row exactly when the symbol's name-token set
intersects the normalized OR-token set and the package's path-token set
intersects the same set. -/
theorem claimC2_multi_word_match (r : Row) (ws : List Str) (hne : ws ≠ [])
    (hw : ∀ w ∈ ws, w ≠ [] ∧ ∀ c ∈ w, c ≠ ' ') :
    filterMultiWordSem r (joinSp ws) = specMultiWordMatch r ws := by
  unfold filterMultiWordSem filterSymbolORSem filterPackageSem specMultiWordMatch
  have e : splitSp (normalizeSem (joinSp ws)) = ws.map normalizeSem := by
    rw [normalizeSem_joinSp]
    refine splitSp_join (ws.map normalizeSem) (by simpa using hne) ?_
    intro w hwm
    obtain ⟨x, hx, rfl⟩ := List.mem_map.mp hwm
    exact normalizeSem_ne_space x (hw x hx).2
  rw [e]

/-- Witness for C2 at the query `http server` and a concrete row. -/
theorem claimC2_witness :
    filterMultiWordSem exRow (joinSp [chars ("http"), chars ("server")])
      = specMultiWordMatch exRow [chars ("http"), chars ("server")] :=
  claimC2_multi_word_match exRow [chars ("http"), chars ("server")] (by decide)
    (by decide)

/-! ## Lemmas about the score semantics -/

theorem popularityMultiplierSem_le_mono {m n : Nat} (h : m ≤ n) :
    popularityMultiplierSem m ≤ popularityMultiplierSem n := by
  unfold popularityMultiplierSem
  have hpos : (0 : ℝ) < Real.exp 1 + m := by positivity
  exact Real.log_le_log hpos (by exact add_le_add_left (Nat.cast_le.mpr h) _)

theorem one_le_popularityMultiplierSem (n : Nat) :
    1 ≤ popularityMultiplierSem n := by
  have h := Real.log_le_log (Real.exp_pos 1)
    (le_add_of_nonneg_right (by positivity : (0 : ℝ) ≤ (n : ℝ)))
  rw [Real.log_exp] at h
  exact h

theorem filterSymbol_ne_filterMultiWord :
    (filterSymbol == filterMultiWord) = false := by decide

theorem filterPackageDotSymbol_ne_filterMultiWord :
    (filterPackageDotSymbol == filterMultiWord) = false := by decide

/-- Claim C3: under the bare-symbol and qualified-reference strategies the
generated score expression is exactly the popularity weight
`ln(e + imported_by_count)` with no lexical-rank factor (also visible in the
generated SQL text), while under the multi-word strategy it is the lexical
rank times the popularity weight, so a zero lexical rank forces a zero
score. -/
theorem claimC3_score_by_strategy :
    (∀ (lex : ℝ) (n : Nat),
        scoreSem filterSymbol lex n = Real.log (Real.exp 1 + n)
      ∧ scoreSem filterPackageDotSymbol lex n = Real.log (Real.exp 1 + n))
    ∧ (∀ (lex : ℝ) (n : Nat),
        scoreSem filterMultiWord lex n = lex * Real.log (Real.exp 1 + n))
    ∧ (∀ n : Nat, scoreSem filterMultiWord 0 n = 0)
    ∧ rawLegacyQuerySymbol
        = sprintf2 symbolSearchBaseQuery popularityMultiplier filterSymbol
    ∧ rawLegacyQueryPackageDotSymbol
        = sprintf2 symbolSearchBaseQuery popularityMultiplier filterPackageDotSymbol
    ∧ rawLegacyQueryMultiWord
        = sprintf2 symbolSearchBaseQuery (formatScore scoreMultiWord) filterMultiWord := by
  refine ⟨fun lex n => ⟨?_, ?_⟩, fun lex n => ?_, fun n => ?_, ?_, ?_, ?_⟩
  · simp [scoreSem, filterSymbol_ne_filterMultiWord, popularityMultiplierSem]
  · simp [scoreSem, filterPackageDotSymbol_ne_filterMultiWord, popularityMultiplierSem]
  · simp [scoreSem, popularityMultiplierSem]
  · simp [scoreSem, popularityMultiplierSem]
  · simp [rawLegacyQuerySymbol, constructQuery, filterSymbol_ne_filterMultiWord]
  · simp [rawLegacyQueryPackageDotSymbol, constructQuery,
      filterPackageDotSymbol_ne_filterMultiWord]
  · simp [rawLegacyQueryMultiWord, constructQuery]

/-- Claim C6: the popularity weight `n ↦ ln(e + n)` is strictly increasing,
maps `0` to `1`, and for every fixed non-negative lexical rank the score of
every strategy is monotone non-decreasing in the popularity counter. -/
theorem claimC6_popularity_weight :
    (∀ n1 n2 : Nat, n1 < n2 →
        popularityMultiplierSem n1 < popularityMultiplierSem n2)
    ∧ popularityMultiplierSem 0 = 1
    ∧ (∀ (wh : String) (lex : ℝ), 0 ≤ lex → ∀ n1 n2 : Nat, n1 ≤ n2 →
        scoreSem wh lex n1 ≤ scoreSem wh lex n2) := by
  refine ⟨fun n1 n2 h => ?_, ?_, fun wh lex hlex n1 n2 h => ?_⟩
  · unfold popularityMultiplierSem
    exact Real.log_lt_log (by positivity) (by exact add_lt_add_left (Nat.cast_lt.mpr h) _)
  · unfold popularityMultiplierSem
    simp [Real.log_exp]
  · unfold scoreSem
    split
    · exact mul_le_mul_of_nonneg_left (popularityMultiplierSem_le_mono h) hlex
    · exact popularityMultiplierSem_le_mono h

/-- Witness for C6: strict growth from popularity 0 to 3, and score
monotonicity at lexical rank 1 under the bare-symbol strategy. -/
theorem claimC6_witness :
    popularityMultiplierSem 0 < popularityMultiplierSem 3
    ∧ scoreSem filterSymbol 1 2 ≤ scoreSem filterSymbol 1 5 :=
  ⟨claimC6_popularity_weight.1 0 3 (by decide),
   claimC6_popularity_weight.2.2 filterSymbol 1 (by simp) 2 5 (by decide)⟩

/-- Claim C10: under the bare-symbol and qualified-reference strategies the
score `ln(e + n)` is at least `1`, hence strictly above the `0.1` relevance
floor, for every popularity counter; only the multi-word strategy can
produce scores at or below the floor (for instance at lexical rank `0`). -/
theorem claimC10_floor_single_word :
    (∀ n : Nat, 1 ≤ popularityMultiplierSem n)
    ∧ (∀ (lex : ℝ) (n : Nat),
        (1 : ℝ)/10 < scoreSem filterSymbol lex n
      ∧ (1 : ℝ)/10 < scoreSem filterPackageDotSymbol lex n)
    ∧ (∃ (lex : ℝ) (n : Nat), scoreSem filterMultiWord lex n ≤ (1 : ℝ)/10) := by
  have hfloor : (1 : ℝ)/10 < 1 := by norm_num
  refine ⟨one_le_popularityMultiplierSem, fun lex n => ⟨?_, ?_⟩, ⟨0, 0, ?_⟩⟩
  · have := one_le_popularityMultiplierSem n
    simp only [scoreSem, filterSymbol_ne_filterMultiWord]
    calc (1 : ℝ)/10 < 1 := hfloor
      _ ≤ popularityMultiplierSem n := this
  · have := one_le_popularityMultiplierSem n
    simp only [scoreSem, filterPackageDotSymbol_ne_filterMultiWord]
    calc (1 : ℝ)/10 < 1 := hfloor
      _ ≤ popularityMultiplierSem n := this
  · simp [scoreSem]

/-- Claim C9: the underscore-to-hyphen normalization applied to match tokens
is idempotent. -/
theorem claimC9_normalize_idempotent (s : Str) :
    normalizeSem (normalizeSem s) = normalizeSem s := by
  unfold normalizeSem
  rw [List.map_map]
  apply List.map_congr_left
  intro c _
  by_cases h : c = '_'
  · subst h; decide
  · simp [Function.comp, normChar, h]

/-- Claim C5: `processArg` wraps exactly the match-token arguments of the
query in the underscore-to-hyphen `replace`, while the head-equality filter
built from `splitFirstDot` contains no such `replace`; semantically, a
package whose name contains a literal underscore is still matched exactly by
the head of a qualified reference, and normalization rewrites every
underscore to a hyphen in the match token. -/
theorem claimC5_normalization_scope :
    processArg ("$1") = "replace($1, '_', '-')"
    ∧ toTSQuery splitOR
        = "to_tsquery('symbols', replace(replace($1, '_', '-'), ' ', ' | '))"
    ∧ processArg ("substring($1 from E'[^.]*\\.(.+)$')")
        = "substring(replace($1, '_', '-') from E'[^.]*\\.(.+)$')"
    ∧ filterPackageNameOrPath
        = "(sd.name=split_part($1, '.', 1) OR sd.package_path=split_part($1, '.', 1))"
    ∧ normalizeSem (chars ("a_b_c")) = chars ("a-b-c")
    ∧ filterPackageDotSymbolSem exRow2 (chars ("a_b.server")) = true
    ∧ headBeforeDot (chars ("a_b.server")) = chars ("a_b") := by
  refine ⟨by decide, by decide, by decide, by decide, by decide, by decide, by decide⟩

/-! ## Lemmas about the result-assembler comparator -/

theorem cmpLin_lt_iff {α : Type} [LinearOrder α] (a b : α) :
    cmpLin a b = Ordering.lt ↔ a < b := by
  unfold cmpLin
  rcases lt_trichotomy a b with h | h | h
  · simp [h]
  · subst h; simp [lt_irrefl]
  · simp [h, not_lt_of_gt h]

theorem cmpLin_gt_iff {α : Type} [LinearOrder α] (a b : α) :
    cmpLin a b = Ordering.gt ↔ b < a := by
  unfold cmpLin
  rcases lt_trichotomy a b with h | h | h
  · simp [h, not_lt_of_gt h]
  · subst h; simp [lt_irrefl]
  · simp [h, not_lt_of_gt h]

theorem cmpLin_eq_iff {α : Type} [LinearOrder α] (a b : α) :
    cmpLin a b = Ordering.eq ↔ a = b := by
  unfold cmpLin
  rcases lt_trichotomy a b with h | h | h
  · simp [h, ne_of_lt h]
  · subst h; simp [lt_irrefl]
  · simp [h, not_lt_of_gt h, ne_of_gt h]

theorem cmpLin_swap {α : Type} [LinearOrder α] (a b : α) :
    cmpLin b a = (cmpLin a b).swap := by
  rcases lt_trichotomy a b with h | h | h
  · rw [(cmpLin_lt_iff a b).mpr h, (cmpLin_gt_iff b a).mpr h]; rfl
  · subst h
    rw [(cmpLin_eq_iff a a).mpr rfl]; rfl
  · rw [(cmpLin_gt_iff a b).mpr h, (cmpLin_lt_iff b a).mpr h]; rfl

theorem cmpLin_lt_trans {α : Type} [LinearOrder α] {a b c : α}
    (h1 : cmpLin a b = Ordering.lt) (h2 : cmpLin b c = Ordering.lt) :
    cmpLin a c = Ordering.lt :=
  (cmpLin_lt_iff a c).mpr
    (lt_trans ((cmpLin_lt_iff a b).mp h1) ((cmpLin_lt_iff b c).mp h2))

theorem then_eq_lt (o p : Ordering) :
    o.then p = Ordering.lt ↔ o = Ordering.lt ∨ (o = Ordering.eq ∧ p = Ordering.lt) := by
  cases o <;> simp [Ordering.then]

theorem then_eq_gt (o p : Ordering) :
    o.then p = Ordering.gt ↔ o = Ordering.gt ∨ (o = Ordering.eq ∧ p = Ordering.gt) := by
  cases o <;> simp [Ordering.then]

theorem then_eq_eq (o p : Ordering) :
    o.then p = Ordering.eq ↔ o = Ordering.eq ∧ p = Ordering.eq := by
  cases o <;> simp [Ordering.then]

theorem then_swap (o p : Ordering) : (o.then p).swap = o.swap.then p.swap := by
  cases o <;> simp [Ordering.then, Ordering.swap]

theorem cmpStr_eq_iff (x y : Str) : cmpStr x y = Ordering.eq ↔ x = y := by
  induction x generalizing y with
  | nil => cases y <;> simp [cmpStr]
  | cons a xs ih =>
    cases y with
    | nil => simp [cmpStr]
    | cons b ys => simp [cmpStr, then_eq_eq, cmpLin_eq_iff, ih ys]

theorem cmpStr_swap (x y : Str) : cmpStr y x = (cmpStr x y).swap := by
  induction x generalizing y with
  | nil => cases y <;> rfl
  | cons a xs ih =>
    cases y with
    | nil => rfl
    | cons b ys =>
      show (cmpLin b a).then (cmpStr ys xs)
        = ((cmpLin a b).then (cmpStr xs ys)).swap
      rw [then_swap, cmpLin_swap, ih ys]

theorem cmpStr_lt_trans {x y z : Str}
    (h1 : cmpStr x y = Ordering.lt) (h2 : cmpStr y z = Ordering.lt) :
    cmpStr x z = Ordering.lt := by
  induction x generalizing y z with
  | nil =>
    cases y with
    | nil => simp [cmpStr] at h1
    | cons b ys =>
      cases z with
      | nil => simp [cmpStr] at h2
      | cons c zs => rfl
  | cons a xs ih =>
    cases y with
    | nil => simp [cmpStr] at h1
    | cons b ys =>
      cases z with
      | nil => simp [cmpStr] at h2
      | cons c zs =>
        rw [show cmpStr (a :: xs) (b :: ys) = (cmpLin a b).then (cmpStr xs ys) from rfl,
          then_eq_lt] at h1
        rw [show cmpStr (b :: ys) (c :: zs) = (cmpLin b c).then (cmpStr ys zs) from rfl,
          then_eq_lt] at h2
        rw [show cmpStr (a :: xs) (c :: zs) = (cmpLin a c).then (cmpStr xs zs) from rfl,
          then_eq_lt]
        rcases h1 with h1 | ⟨h1e, h1t⟩
        · rcases h2 with h2 | ⟨h2e, h2t⟩
          · exact Or.inl (cmpLin_lt_trans h1 h2)
          · have heq : b = c := (cmpLin_eq_iff b c).mp h2e
            subst heq
            exact Or.inl h1
        · have heq : a = b := (cmpLin_eq_iff a b).mp h1e
          subst heq
          rcases h2 with h2 | ⟨h2e, h2t⟩
          · exact Or.inl h2
          · have heq2 : a = c := (cmpLin_eq_iff a c).mp h2e
            subst heq2
            exact Or.inr ⟨(cmpLin_eq_iff a a).mpr rfl, ih h1t h2t⟩

theorem cmpPair_eq_iff {α β : Type} {cA : α → α → Ordering} {cB : β → β → Ordering}
    (hA : ∀ a b, cA a b = Ordering.eq ↔ a = b)
    (hB : ∀ a b, cB a b = Ordering.eq ↔ a = b)
    (x y : α × β) : cmpPair cA cB x y = Ordering.eq ↔ x = y := by
  unfold cmpPair
  rw [then_eq_eq, hA, hB, Prod.ext_iff]

theorem cmpPair_swap {α β : Type} {cA : α → α → Ordering} {cB : β → β → Ordering}
    (hA : ∀ a b, cA b a = (cA a b).swap)
    (hB : ∀ a b, cB b a = (cB a b).swap)
    (x y : α × β) : cmpPair cA cB y x = (cmpPair cA cB x y).swap := by
  unfold cmpPair
  rw [then_swap, hA, hB]

theorem cmpPair_lt_trans {α β : Type} {cA : α → α → Ordering} {cB : β → β → Ordering}
    (hAeq : ∀ a b, cA a b = Ordering.eq ↔ a = b)
    (hAtr : ∀ a b c, cA a b = Ordering.lt → cA b c = Ordering.lt → cA a c = Ordering.lt)
    (hBtr : ∀ a b c, cB a b = Ordering.lt → cB b c = Ordering.lt → cB a c = Ordering.lt)
    {x y z : α × β}
    (h1 : cmpPair cA cB x y = Ordering.lt) (h2 : cmpPair cA cB y z = Ordering.lt) :
    cmpPair cA cB x z = Ordering.lt := by
  unfold cmpPair at h1 h2 ⊢
  rw [then_eq_lt] at h1 h2 ⊢
  rcases h1 with h1 | ⟨h1e, h1t⟩
  · rcases h2 with h2 | ⟨h2e, h2t⟩
    · exact Or.inl (hAtr _ _ _ h1 h2)
    · have heq : y.1 = z.1 := (hAeq _ _).mp h2e
      rw [← heq]
      exact Or.inl h1
  · have heq : x.1 = y.1 := (hAeq _ _).mp h1e
    rcases h2 with h2 | ⟨h2e, h2t⟩
    · rw [heq]
      exact Or.inl h2
    · have heq2 : y.1 = z.1 := (hAeq _ _).mp h2e
      refine Or.inr ⟨?_, hBtr _ _ _ h1t h2t⟩
      rw [heq, heq2]
      exact (hAeq _ _).mpr rfl

theorem cmpDesc_eq_iff {α : Type} [LinearOrder α] (a b : α) :
    cmpDesc a b = Ordering.eq ↔ a = b := by
  unfold cmpDesc
  rw [cmpLin_eq_iff]
  exact eq_comm

theorem cmpDesc_swap {α : Type} [LinearOrder α] (a b : α) :
    cmpDesc b a = (cmpDesc a b).swap := by
  unfold cmpDesc
  exact cmpLin_swap b a

theorem cmpDesc_lt_trans {α : Type} [LinearOrder α] {a b c : α}
    (h1 : cmpDesc a b = Ordering.lt) (h2 : cmpDesc b c = Ordering.lt) :
    cmpDesc a c = Ordering.lt :=
  cmpLin_lt_trans h2 h1

theorem cmpKey_eq_iff (k1 k2 : ℚ × Int × Str × Str) :
    cmpKey k1 k2 = Ordering.eq ↔ k1 = k2 := by
  unfold cmpKey
  exact cmpPair_eq_iff cmpDesc_eq_iff
    (fun a b => cmpPair_eq_iff cmpDesc_eq_iff
      (fun a b => cmpPair_eq_iff cmpStr_eq_iff cmpStr_eq_iff a b) a b) k1 k2

theorem cmpKey_swap (k1 k2 : ℚ × Int × Str × Str) :
    cmpKey k2 k1 = (cmpKey k1 k2).swap := by
  unfold cmpKey
  exact cmpPair_swap cmpDesc_swap
    (fun a b => cmpPair_swap cmpDesc_swap
      (fun a b => cmpPair_swap cmpStr_swap cmpStr_swap a b) a b) k1 k2

theorem cmpKey_lt_trans {k1 k2 k3 : ℚ × Int × Str × Str}
    (h1 : cmpKey k1 k2 = Ordering.lt) (h2 : cmpKey k2 k3 = Ordering.lt) :
    cmpKey k1 k3 = Ordering.lt := by
  have hStr : ∀ a b c : Str,
      cmpStr a b = Ordering.lt → cmpStr b c = Ordering.lt →
        cmpStr a c = Ordering.lt :=
    fun _ _ _ ha hb => cmpStr_lt_trans ha hb
  have hPairStr : ∀ a b c : Str × Str,
      cmpPair cmpStr cmpStr a b = Ordering.lt →
        cmpPair cmpStr cmpStr b c = Ordering.lt →
          cmpPair cmpStr cmpStr a c = Ordering.lt :=
    fun _ _ _ ha hb => cmpPair_lt_trans cmpStr_eq_iff hStr hStr ha hb
  have hDescInt : ∀ a b c : Int,
      cmpDesc a b = Ordering.lt → cmpDesc b c = Ordering.lt →
        cmpDesc a c = Ordering.lt :=
    fun _ _ _ ha hb => cmpDesc_lt_trans ha hb
  have hDescQ : ∀ a b c : ℚ,
      cmpDesc a b = Ordering.lt → cmpDesc b c = Ordering.lt →
        cmpDesc a c = Ordering.lt :=
    fun _ _ _ ha hb => cmpDesc_lt_trans ha hb
  have hInner : ∀ a b c : Int × Str × Str,
      cmpPair cmpDesc (cmpPair cmpStr cmpStr) a b = Ordering.lt →
        cmpPair cmpDesc (cmpPair cmpStr cmpStr) b c = Ordering.lt →
          cmpPair cmpDesc (cmpPair cmpStr cmpStr) a c = Ordering.lt :=
    fun _ _ _ ha hb => cmpPair_lt_trans cmpDesc_eq_iff hDescInt hPairStr ha hb
  unfold cmpKey at h1 h2 ⊢
  exact cmpPair_lt_trans cmpDesc_eq_iff hDescQ hInner h1 h2

theorem cmpRows_swap (a b : ScoredRow) : cmpRows b a = (cmpRows a b).swap :=
  cmpKey_swap (sortKey a) (sortKey b)

theorem rle_total (a b : ScoredRow) : rle a b ∨ rle b a := by
  unfold rle
  rcases h : cmpRows a b with hc | hc | hc
  · exact Or.inl (fun he => by cases he)
  · exact Or.inl (fun he => by cases he)
  · refine Or.inr ?_
    rw [cmpRows_swap, h]
    intro he; cases he

theorem rle_trans {a b c : ScoredRow} (hab : rle a b) (hbc : rle b c) :
    rle a c := by
  unfold rle cmpRows at hab hbc ⊢
  rcases h1 : cmpKey (sortKey a) (sortKey b) with hc | hc | hc
  · rcases h2 : cmpKey (sortKey b) (sortKey c) with hd | hd | hd
    · rw [cmpKey_lt_trans h1 h2]
      intro he; cases he
    · have heq : sortKey b = sortKey c := (cmpKey_eq_iff _ _).mp h2
      rw [← heq, h1]
      intro he; cases he
    · exact absurd h2 hbc
  · have heq : sortKey a = sortKey b := (cmpKey_eq_iff _ _).mp h1
    rw [heq]
    exact hbc
  · exact absurd h1 hab

theorem rle_antisymm_key {a b : ScoredRow} (hab : rle a b) (hba : rle b a) :
    sortKey a = sortKey b := by
  unfold rle at hab hba
  rcases h : cmpRows a b with hc | hc | hc
  · exfalso
    apply hba
    rw [cmpRows_swap, h]
    rfl
  · exact (cmpKey_eq_iff _ _).mp h
  · exact absurd h hab

theorem insertRow_perm (x : ScoredRow) (l : List ScoredRow) :
    (insertRow x l).Perm (x :: l) := by
  induction l with
  | nil => exact List.Perm.refl _
  | cons y ys ih =>
    unfold insertRow
    split
    · exact (ih.cons y).trans (List.Perm.swap x y ys)
    · exact List.Perm.refl _

theorem sortRows_perm (l : List ScoredRow) : (sortRows l).Perm l := by
  induction l with
  | nil => exact List.Perm.refl _
  | cons x xs ih =>
    exact (insertRow_perm x (sortRows xs)).trans (ih.cons x)

theorem insertRow_pairwise (x : ScoredRow) (l : List ScoredRow)
    (hl : l.Pairwise rle) : (insertRow x l).Pairwise rle := by
  induction l with
  | nil => simp [insertRow]
  | cons y ys ih =>
    obtain ⟨hy, hys⟩ := List.pairwise_cons.mp hl
    unfold insertRow
    split
    · rename_i hgt
      refine List.pairwise_cons.mpr ⟨?_, ih hys⟩
      intro z hz
      have hz' : z ∈ x :: ys := (insertRow_perm x ys).subset hz
      rcases List.mem_cons.mp hz' with hz' | hz'
      · subst hz'
        unfold rle
        rw [cmpRows_swap, hgt]
        intro he; cases he
      · exact hy z hz'
    · rename_i hngt
      have hxy : rle x y := hngt
      refine List.pairwise_cons.mpr ⟨?_, hl⟩
      intro z hz
      rcases List.mem_cons.mp hz with hz | hz
      · subst hz; exact hxy
      · exact rle_trans hxy (hy z hz)

theorem sortRows_pairwise (l : List ScoredRow) : (sortRows l).Pairwise rle := by
  induction l with
  | nil => exact List.Pairwise.nil
  | cons x xs ih => exact insertRow_pairwise x (sortRows xs) ih

theorem sorted_key_unique : ∀ {l1 l2 : List ScoredRow}, l1.Perm l2 →
    l1.Pairwise rle → l2.Pairwise rle →
    (∀ a ∈ l1, ∀ b ∈ l1, sortKey a = sortKey b → a = b) → l1 = l2 := by
  intro l1
  induction l1 with
  | nil =>
    intro l2 hp _ _ _
    exact List.Perm.nil_eq hp
  | cons a t ih =>
    intro l2 hp h1 h2 hinj
    cases l2 with
    | nil => cases hp.eq_nil
    | cons b t2 =>
      by_cases hab : a = b
      · subst hab
        have e := ih hp.cons_inv (List.pairwise_cons.mp h1).2
          (List.pairwise_cons.mp h2).2
          (fun x hx y hy hk =>
            hinj x (List.mem_cons_of_mem a hx) y (List.mem_cons_of_mem a hy) hk)
        rw [e]
      · have hbmem : b ∈ a :: t := hp.symm.subset (List.mem_cons_self b t2)
        have hbt : b ∈ t := by
          rcases List.mem_cons.mp hbmem with h | h
          · exact absurd h.symm hab
          · exact h
        have hamem : a ∈ b :: t2 := hp.subset (List.mem_cons_self a t)
        have hat : a ∈ t2 := by
          rcases List.mem_cons.mp hamem with h | h
          · exact absurd h hab
          · exact h
        have hr1 : rle a b := (List.pairwise_cons.mp h1).1 b hbt
        have hr2 : rle b a := (List.pairwise_cons.mp h2).1 a hat
        have hk := rle_antisymm_key hr1 hr2
        exact absurd
          (hinj a (List.mem_cons_self a t) b (List.mem_cons_of_mem a hbt) hk) hab

/-- Claim C4: the assembler keeps exactly the rows above the `0.1` score
floor, sorts them by score descending, then commit time descending, then
symbol name, then package path, truncates to the limit, and — whenever the
four sort keys distinguish the rows — produces the same output for every
permutation of its input. -/
theorem claimC4_assemble (rows rows2 : List ScoredRow) (limit : Nat)
    (hperm : rows.Perm rows2)
    (hinj : ∀ a ∈ rows, ∀ b ∈ rows, sortKey a = sortKey b → a = b) :
    (∀ sr ∈ assemble rows limit, (1 : ℚ)/10 < sr.score ∧ sr ∈ rows)
    ∧ (assemble rows limit).Pairwise rle
    ∧ (assemble rows limit).length = min limit (rows.filter keepRow).length
    ∧ ((rows.filter keepRow).length ≤ limit →
        (assemble rows limit).Perm (rows.filter keepRow))
    ∧ assemble rows limit = assemble rows2 limit := by
  have hmemf : ∀ sr ∈ assemble rows limit, sr ∈ rows.filter keepRow := by
    intro sr hsr
    have h1 : sr ∈ sortRows (rows.filter keepRow) :=
      List.take_subset _ _ hsr
    exact (sortRows_perm (rows.filter keepRow)).subset h1
  refine ⟨?_, ?_, ?_, ?_, ?_⟩
  · intro sr hsr
    have h2 := hmemf sr hsr
    constructor
    · have h3 := List.of_mem_filter h2
      exact of_decide_eq_true h3
    · exact List.mem_of_mem_filter h2
  · exact List.Pairwise.sublist (List.take_sublist limit _)
      (sortRows_pairwise (rows.filter keepRow))
  · unfold assemble
    rw [List.length_take, (sortRows_perm (rows.filter keepRow)).length_eq]
  · intro hlen
    unfold assemble
    rw [List.take_of_length_le]
    · exact sortRows_perm (rows.filter keepRow)
    · rw [(sortRows_perm (rows.filter keepRow)).length_eq]
      exact hlen
  · have hf : (rows.filter keepRow).Perm (rows2.filter keepRow) :=
      hperm.filter keepRow
    have hp : (sortRows (rows.filter keepRow)).Perm
        (sortRows (rows2.filter keepRow)) :=
      (sortRows_perm _).trans (hf.trans (sortRows_perm _).symm)
    have hinj2 : ∀ a ∈ sortRows (rows.filter keepRow),
        ∀ b ∈ sortRows (rows.filter keepRow), sortKey a = sortKey b → a = b := by
      intro a ha b hb hk
      have ha2 : a ∈ rows :=
        List.mem_of_mem_filter ((sortRows_perm _).subset ha)
      have hb2 : b ∈ rows :=
        List.mem_of_mem_filter ((sortRows_perm _).subset hb)
      exact hinj a ha2 b hb2 hk
    have e := sorted_key_unique hp (sortRows_pairwise _) (sortRows_pairwise _)
      hinj2
    unfold assemble
    rw [e]

/-- Witness for C4: two concrete scored rows with distinct sort keys,
assembled in both orders. -/
theorem claimC4_witness :
    assemble [exScored1, exScored2] 5 = assemble [exScored2, exScored1] 5 :=
  (claimC4_assemble [exScored1, exScored2] [exScored2, exScored1] 5
    (by decide) (by decide)).2.2.2.2

/-- Claim C7: an input of qualified-reference shape (no whitespace, contains
a dot) whose head before the first dot is empty, or which has nothing after
the first dot, compiles to the `InvalidQuery` error rather than to a query
of any strategy. -/
theorem claimC7_invalid_query (raw : Str) (limit : Int)
    (hlim : 0 < limit)
    (hsp : raw.contains (' ') = false)
    (hdot : raw.contains ('.') = true)
    (hbad : headBeforeDot raw = [] ∨ restAfterDot raw = none) :
    compile raw limit = Except.error QueryError.invalidQuery := by
  unfold compile
  rw [if_neg (not_le.mpr hlim), hsp, hdot]
  simp only [Bool.false_eq_true, if_false, if_true]
  rcases hh : headBeforeDot raw with _ | ⟨c, hs⟩ <;>
    rcases hr : restAfterDot raw with _ | r
  · rfl
  · rfl
  · rfl
  · exfalso
    rcases hbad with h | h
    · rw [hh] at h; cases h
    · rw [hr] at h; cases h

/-- Witness for C7: the malformed qualified references `.Method` (empty
head) and `pkg.` (empty rest) both yield `InvalidQuery` at limit 10. -/
theorem claimC7_witness :
    compile (chars (".Method")) 10 = Except.error QueryError.invalidQuery
    ∧ compile (chars ("pkg.")) 10 = Except.error QueryError.invalidQuery :=
  ⟨claimC7_invalid_query (chars (".Method")) 10 (by decide) (by decide)
      (by decide) (Or.inl (by decide)),
   claimC7_invalid_query (chars ("pkg.")) 10 (by decide) (by decide)
      (by decide) (Or.inr (by decide))⟩

/-- Claim C8: every limit less than or equal to zero compiles to the
`InvalidLimit` error, whatever the query text. -/
theorem claimC8_invalid_limit (raw : Str) (limit : Int) (hlim : limit ≤ 0) :
    compile raw limit = Except.error QueryError.invalidLimit := by
  unfold compile
  rw [if_pos hlim]

/-- Witness for C8: limit 0 with the query `Marshal`. -/
theorem claimC8_witness :
    compile (chars ("Marshal")) 0 = Except.error QueryError.invalidLimit :=
  claimC8_invalid_limit (chars ("Marshal")) 0 (by decide)
